import Mathlib

/-!
Verification of the recurrence-rule date engine of `internal/services/datecalc.go`
(`NextDate`, `AfterNow`, `matchesMDay` and the constant `DateFormat`).

The Go code works on `time.Time` values truncated to whole days.  We model a
point in time as a civil calendar date `CDate` (year, month, day); chronological
comparison of `time.Time` values at day granularity is comparison of the count
of days since the Unix epoch, computed by `dayNumber` (the standard civil-dates
algorithm over the proleptic Gregorian calendar, which is the calendar Go's
`time` package implements).  `time.Weekday` is Sunday = 0 … Saturday = 6, and
1970-01-01 is a Thursday (= 4).

`AddDate(0,0,n)` for `n ≥ 0` adds exactly `n` calendar days; we model it by
iterating the successor function `nextDay`.  `AddDate(1,0,0)` adds one to the
year and normalizes the day against the new month's length (Feb 29 rolls over
to Mar 1), modelled by `addYear`.

The Go `for {}` search loops have no bound in the source (and for some inputs
genuinely run forever), so each loop takes an explicit fuel argument; `none`
means the loop was still running after `fuel` iterations.
-/

structure CDate where
  y : Int
  m : Int
  d : Int
deriving DecidableEq, Repr

def isLeap (y : Int) : Bool :=
  y % 4 == 0 && (y % 100 != 0 || y % 400 == 0)

/-- Number of days in a month; `time.Date(y, m+1, 0, …).Day()` in the source. -/
def daysInMonth (y m : Int) : Int :=
  if m = 2 then (if isLeap y then 29 else 28)
  else if m = 4 ∨ m = 6 ∨ m = 9 ∨ m = 11 then 30
  else 31

/-- A well-formed civil date (what `time.Parse` produces and `time.Time` holds). -/
def Valid (v : CDate) : Prop :=
  1 ≤ v.m ∧ v.m ≤ 12 ∧ 1 ≤ v.d ∧ v.d ≤ daysInMonth v.y v.m

instance (v : CDate) : Decidable (Valid v) := by
  unfold Valid; infer_instance

/-- Days since 1970-01-01 of a civil date (Gregorian, the arithmetic Go's
`time` package performs internally).  `/` and `%` on `Int` are Euclidean
(floor for the positive divisors used here). -/
def dayNumber (v : CDate) : Int :=
  (if v.m ≤ 2 then v.y - 1 else v.y) / 400 * 146097
    + ((if v.m ≤ 2 then v.y - 1 else v.y) % 400) * 365
    + ((if v.m ≤ 2 then v.y - 1 else v.y) % 400) / 4
    - ((if v.m ≤ 2 then v.y - 1 else v.y) % 400) / 100
    + (153 * (if v.m ≤ 2 then v.m + 9 else v.m - 3) + 2) / 5
    + v.d - 1 - 719468

/-- `int(t.Weekday())`: Sunday = 0 … Saturday = 6. -/
def weekday (v : CDate) : Int :=
  (dayNumber v + 4) % 7

/-- `AfterNow(date, now)` from the source: both times are truncated to whole
days (our dates already are) and compared strictly. -/
def AfterNow (date now : CDate) : Bool :=
  dayNumber now < dayNumber date

/-- Calendar successor of a date. -/
def nextDay (v : CDate) : CDate :=
  if v.d < daysInMonth v.y v.m then ⟨v.y, v.m, v.d + 1⟩
  else if v.m < 12 then ⟨v.y, v.m + 1, 1⟩
  else ⟨v.y + 1, 1, 1⟩

/-- `t.AddDate(0, 0, n)` for `n ≥ 0`: add `n` calendar days. -/
def addDays (v : CDate) : Nat → CDate
  | 0 => v
  | n + 1 => addDays (nextDay v) n

/-- `t.AddDate(1, 0, 0)`: add one year, normalizing day-of-month overflow
(Feb 29 of a leap year becomes Mar 1 of the next year). -/
def addYear (v : CDate) : CDate :=
  let len := daysInMonth (v.y + 1) v.m
  if v.d ≤ len then ⟨v.y + 1, v.m, v.d⟩
  else if v.m < 12 then ⟨v.y + 1, v.m + 1, v.d - len⟩
  else ⟨v.y + 2, 1, v.d - len⟩

/-- Iterated `AddDate(1, 0, 0)` (the `y` rule applies it repeatedly). -/
def addYearIter (v : CDate) : Nat → CDate
  | 0 => v
  | k + 1 => addYearIter (addYear v) k

/-- `matchesMDay(date, days)` from the source: positive entries 1–31 compare
against the day of month, -1 against the last day of the date's month, -2
against the second-to-last day; anything else matches nothing. -/
def matchesMDay (date : CDate) (days : List Int) : Bool :=
  let lastDay := daysInMonth date.y date.m
  days.any fun day =>
    if 1 ≤ day ∧ day ≤ 31 then date.d == day
    else if day = -1 then date.d == lastDay
    else if day = -2 then date.d == lastDay - 1
    else false

/-! ### The string layer: `DateFormat = "20060102"` and `strconv.Atoi` -/

def digitCh (k : Nat) : Char := Char.ofNat (48 + k)

def digitVal (c : Char) : Nat := c.toNat - 48

def isDigitCh (c : Char) : Bool := 48 ≤ c.toNat && c.toNat ≤ 57

/-- `time.Parse(DateFormat, s)`: exactly eight digits, month 1–12, day within
the month's length; on success the time is midnight UTC of that civil date. -/
def parseDate (s : String) : Option CDate :=
  match s.data with
  | [a, b, c, d, e, f, g, h] =>
    if isDigitCh a && isDigitCh b && isDigitCh c && isDigitCh d &&
       isDigitCh e && isDigitCh f && isDigitCh g && isDigitCh h then
      let yv : Int := Int.ofNat (((digitVal a * 10 + digitVal b) * 10 + digitVal c) * 10 + digitVal d)
      let mv : Int := Int.ofNat (digitVal e * 10 + digitVal f)
      let dv : Int := Int.ofNat (digitVal g * 10 + digitVal h)
      if 1 ≤ mv ∧ mv ≤ 12 ∧ 1 ≤ dv ∧ dv ≤ daysInMonth yv mv then some ⟨yv, mv, dv⟩
      else none
    else none
  | _ => none

/-- Two-digit zero-padded field (month and day are always in 1–31). -/
def pad2 (n : Int) : List Char :=
  [digitCh ((n.toNat / 10) % 10), digitCh (n.toNat % 10)]

/-- Year field of `t.Format(DateFormat)`: zero-padded to four digits, full
decimal expansion beyond 9999. -/
def padYear (k : Nat) : List Char :=
  if k < 10000 then
    [digitCh (k / 1000), digitCh ((k / 100) % 10), digitCh ((k / 10) % 10), digitCh (k % 10)]
  else Nat.toDigits 10 k

/-- `t.Format(DateFormat)`. -/
def formatDate (v : CDate) : String :=
  let ys := if v.y < 0 then '-' :: padYear (-v.y).toNat else padYear v.y.toNat
  ⟨ys ++ pad2 v.m ++ pad2 v.d⟩

/-- All-digit string to number (`strconv.Atoi` without sign). -/
def digitsVal : List Char → Option Nat
  | [] => none
  | cs => if cs.all isDigitCh then some (cs.foldl (fun acc c => acc * 10 + digitVal c) 0) else none

/-- `strconv.Atoi`: optional sign followed by at least one digit. -/
def atoi (s : String) : Option Int :=
  match s.data with
  | '+' :: rest => (digitsVal rest).map Int.ofNat
  | '-' :: rest => (digitsVal rest).map (fun n => -(Int.ofNat n))
  | cs => (digitsVal cs).map Int.ofNat

/-- `strings.Split(s, sep)` for a single-character separator: split at every
occurrence, keeping empty components; the empty string yields `[""]`. -/
def splitCh (sep : Char) : List Char → List String
  | [] => [""]
  | c :: rest =>
    if c = sep then "" :: splitCh sep rest
    else
      match splitCh sep rest with
      | [] => [String.mk [c]]
      | s :: tail => String.mk (c :: s.data) :: tail

/-! ### Error taxonomy: one constructor per distinct error return in `NextDate` -/

inductive DErr where
  | badStartDate : DErr
  | emptyRepeat : DErr
  | dNeedsOneValue : DErr
  | dIntervalNotInt : String → DErr
  | dIntervalRange : DErr
  | wNeedsList : DErr
  | wInvalidWeekday : String → DErr
  | mNeedsDays : DErr
  | mDayNotInt : String → DErr
  | mDayRange : Int → DErr
  | mMonthNotInt : String → DErr
  | mMonthRange : Int → DErr
  | unsupportedRule : String → DErr
deriving DecidableEq, Repr

instance {α : Type} [DecidableEq α] : DecidableEq (Except DErr α) := fun x y =>
  match x, y with
  | .error a, .error b => decidable_of_iff (a = b) (by simp)
  | .ok a, .ok b => decidable_of_iff (a = b) (by simp)
  | .error _, .ok _ => isFalse (by simp)
  | .ok _, .error _ => isFalse (by simp)

/-- The weekday-list parsing loop of the `w` branch: `Atoi` each element,
require 1–7, map 7 to 0. -/
def parseWeekdays : List String → Except DErr (List Int)
  | [] => .ok []
  | s :: rest =>
    match atoi s with
    | none => .error (.wInvalidWeekday s)
    | some day =>
      if day < 1 ∨ day > 7 then .error (.wInvalidWeekday s)
      else (parseWeekdays rest).map (fun l => (if day = 7 then 0 else day) :: l)

/-- The day-list parsing loop of the `m` branch: `Atoi` each element, require
-2 ≤ day ≤ 31. -/
def parseMDays : List String → Except DErr (List Int)
  | [] => .ok []
  | s :: rest =>
    match atoi s with
    | none => .error (.mDayNotInt s)
    | some day =>
      if day < -2 ∨ day > 31 then .error (.mDayRange day)
      else (parseMDays rest).map (fun l => day :: l)

/-- The month-list parsing loop of the `m` branch: `Atoi` each element,
require 1–12. -/
def parseMonths : List String → Except DErr (List Int)
  | [] => .ok []
  | s :: rest =>
    match atoi s with
    | none => .error (.mMonthNotInt s)
    | some mo =>
      if mo < 1 ∨ mo > 12 then .error (.mMonthRange mo)
      else (parseMonths rest).map (fun l => mo :: l)

/-! ### The four search loops (each Go `for {}` gets a fuel counter) -/

/-- `d` rule body: add `interval` days until strictly after `now`. -/
def dLoop (now : CDate) (interval : Nat) : Nat → CDate → Option CDate
  | 0, _ => none
  | fuel + 1, date =>
    if AfterNow (addDays date interval) now then some (addDays date interval)
    else dLoop now interval fuel (addDays date interval)

/-- `y` rule body: add one year until strictly after `now`. -/
def yLoop (now : CDate) : Nat → CDate → Option CDate
  | 0, _ => none
  | fuel + 1, date =>
    if AfterNow (addYear date) now then some (addYear date)
    else yLoop now fuel (addYear date)

/-- The candidate-advancing loop of the `w` and `m` branches: unconditionally
step one day, stop as soon as the candidate is strictly after `now`. -/
def advanceLoop (now : CDate) : Nat → CDate → Option CDate
  | 0, _ => none
  | fuel + 1, c =>
    if AfterNow (nextDay c) now then some (nextDay c)
    else advanceLoop now fuel (nextDay c)

/-- The weekday scan (`loop:` in the source): first candidate whose weekday is
in the list. -/
def scanW (weekdays : List Int) : Nat → CDate → Option CDate
  | 0, _ => none
  | fuel + 1, c =>
    if weekdays.any (fun t => weekday c == t) then some c
    else scanW weekdays fuel (nextDay c)

/-- The month/day scan (`loopTwo:` in the source).  With no months the
candidate is tested by `matchesMDay`; with months present the raw day of month
is compared against the `days` entries, so -1 and -2 can never match. -/
def scanM (days months : List Int) : Nat → CDate → Option CDate
  | 0, _ => none
  | fuel + 1, c =>
    if months.isEmpty && matchesMDay c days then some c
    else if months.any (fun tm => days.any (fun td => c.m == tm && c.d == td)) then some c
    else scanM days months fuel (nextDay c)

/-- Rule dispatch of `NextDate` after the start date has been parsed and the
rule split on single spaces (`strings.Split(repeat, " ")`). -/
def dispatch (fuel : Nat) (now date : CDate) (parts : List String) : Option (Except DErr String) :=
  match parts with
  | [] => some (.error (.unsupportedRule ""))
  | p0 :: rest =>
    if p0 = "d" then
      match rest with
      | [t] =>
        match atoi t with
        | none => some (.error (.dIntervalNotInt t))
        | some interval =>
          if interval ≤ 0 ∨ interval > 400 then some (.error .dIntervalRange)
          else (dLoop now interval.toNat fuel date).map (fun v => .ok (formatDate v))
      | _ => some (.error .dNeedsOneValue)
    else if p0 = "y" then
      (yLoop now fuel date).map (fun v => .ok (formatDate v))
    else if p0 = "w" then
      match rest with
      | [] => some (.error .wNeedsList)
      | t :: _ =>
        match parseWeekdays (splitCh ',' t.data) with
        | .error e => some (.error e)
        | .ok wds =>
          match advanceLoop now fuel (nextDay date) with
          | none => none
          | some c => (scanW wds fuel c).map (fun v => .ok (formatDate v))
    else if p0 = "m" then
      match rest with
      | [] => some (.error .mNeedsDays)
      | t1 :: rest2 =>
        match parseMDays (splitCh ',' t1.data) with
        | .error e => some (.error e)
        | .ok days =>
          match (match rest2 with
                 | [] => Except.ok []
                 | t2 :: _ => parseMonths (splitCh ',' t2.data)) with
          | .error e => some (.error e)
          | .ok months =>
            match advanceLoop now fuel (nextDay date) with
            | none => none
            | some c => (scanM days months fuel c).map (fun v => .ok (formatDate v))
    else some (.error (.unsupportedRule p0))

/-- `NextDate(now, dstart, repeat)` from the source, with `fuel` bounding each
unbounded `for {}` loop; `none` means the call was still looping after `fuel`
iterations of some loop. -/
def NextDate (fuel : Nat) (now : CDate) (dstart rpt : String) : Option (Except DErr String) :=
  match parseDate dstart with
  | none => some (.error .badStartDate)
  | some date =>
    if rpt = "" then some (.error .emptyRepeat)
    else dispatch fuel now date (splitCh ' ' rpt.data)

/-- The call loops forever: no amount of fuel makes it return. -/
def NeverReturns (now : CDate) (dstart rpt : String) : Prop :=
  ∀ fuel, NextDate fuel now dstart rpt = none

/-! ### Calendar arithmetic facts -/

lemma daysInMonth_lb (y m : Int) : 28 ≤ daysInMonth y m := by
  unfold daysInMonth
  split_ifs <;> norm_num

lemma daysInMonth_ub (y m : Int) : daysInMonth y m ≤ 31 := by
  unfold daysInMonth
  split_ifs <;> norm_num

lemma isLeap_iff (y : Int) : isLeap y = true ↔ (y % 4 = 0 ∧ (y % 100 ≠ 0 ∨ y % 400 = 0)) := by
  unfold isLeap
  simp [Bool.and_eq_true, Bool.or_eq_true, beq_iff_eq, bne_iff_ne]

lemma dayNumber_day_succ (y m d : Int) :
    dayNumber ⟨y, m, d + 1⟩ = dayNumber ⟨y, m, d⟩ + 1 := by
  unfold dayNumber
  dsimp only
  split_ifs <;> omega

lemma dayNumber_day_diff (y m a b : Int) :
    dayNumber ⟨y, m, a⟩ - dayNumber ⟨y, m, b⟩ = a - b := by
  unfold dayNumber
  dsimp only
  split_ifs <;> omega

lemma dayNumber_month_succ (y m : Int) (h1 : 1 ≤ m) (h2 : m ≤ 11) :
    dayNumber ⟨y, m + 1, 1⟩ = dayNumber ⟨y, m, daysInMonth y m⟩ + 1 := by
  interval_cases m <;>
    · unfold dayNumber daysInMonth
      dsimp only
      norm_num
      first
      | omega
      | (split_ifs <;> simp_all only [isLeap_iff] <;> omega)

lemma dayNumber_year_step (y : Int) :
    dayNumber ⟨y + 1, 1, 1⟩ = dayNumber ⟨y, 12, 31⟩ + 1 := by
  unfold dayNumber
  dsimp only
  norm_num
  omega

lemma dayNumber_year_succ (y m d : Int) :
    dayNumber ⟨y + 1, m, d⟩
      = dayNumber ⟨y, m, d⟩ + (if isLeap (if m ≤ 2 then y else y + 1) then 366 else 365) := by
  unfold dayNumber
  dsimp only
  by_cases hm : m ≤ 2 <;>
    simp_all only [isLeap, Bool.and_eq_true, Bool.or_eq_true, beq_iff_eq, bne_iff_ne] <;>
    split_ifs <;>
    simp_all <;>
    omega

lemma dayNumber_nextDay (v : CDate) (h : Valid v) : dayNumber (nextDay v) = dayNumber v + 1 := by
  obtain ⟨y, m, d⟩ := v
  obtain ⟨h1, h2, h3, h4⟩ := h
  simp only at h1 h2 h3 h4
  unfold nextDay
  dsimp only
  split_ifs with hlt hm
  · exact dayNumber_day_succ y m d
  · have hd : d = daysInMonth y m := by omega
    subst hd
    exact dayNumber_month_succ y m h1 (by omega)
  · have hm12 : m = 12 := by omega
    subst hm12
    have hd : d = 31 := by
      have h5 := h4
      unfold daysInMonth at h5 hlt
      norm_num at h5 hlt
      omega
    subst hd
    exact dayNumber_year_step y

lemma valid_nextDay (v : CDate) (h : Valid v) : Valid (nextDay v) := by
  obtain ⟨y, m, d⟩ := v
  obtain ⟨h1, h2, h3, h4⟩ := h
  simp only at h1 h2 h3 h4
  unfold nextDay
  dsimp only
  split_ifs with hlt hm <;>
    unfold Valid <;>
    refine ⟨?_, ?_, ?_, ?_⟩ <;>
    dsimp only <;>
    first
    | omega
    | (have l1 := daysInMonth_lb y (m + 1); omega)
    | (have l2 := daysInMonth_lb (y + 1) 1; omega)

/-! ### `addDays` -/

lemma addDays_succ_iter (v : CDate) (n : Nat) :
    addDays v (n + 1) = addDays (nextDay v) n := rfl

lemma addDays_add (v : CDate) (a b : Nat) :
    addDays v (a + b) = addDays (addDays v a) b := by
  induction a generalizing v with
  | zero => rw [Nat.zero_add]; rfl
  | succ a ih =>
    have : a + 1 + b = (a + b) + 1 := by omega
    rw [this]
    show addDays (nextDay v) (a + b) = addDays (addDays (nextDay v) a) b
    exact ih (nextDay v)

lemma valid_addDays (v : CDate) (n : Nat) (h : Valid v) : Valid (addDays v n) := by
  induction n generalizing v with
  | zero => exact h
  | succ n ih => exact ih (nextDay v) (valid_nextDay v h)

lemma dayNumber_addDays (v : CDate) (n : Nat) (h : Valid v) :
    dayNumber (addDays v n) = dayNumber v + n := by
  induction n generalizing v with
  | zero => simp [addDays]
  | succ n ih =>
    rw [addDays_succ_iter]
    rw [ih (nextDay v) (valid_nextDay v h), dayNumber_nextDay v h]
    push_cast
    ring

/-! ### `addYear` -/

lemma daysInMonth_ne_two (y z m : Int) (h : m ≠ 2) : daysInMonth y m = daysInMonth z m := by
  unfold daysInMonth
  split_ifs <;> first | rfl | omega

lemma valid_addYear (v : CDate) (h : Valid v) : Valid (addYear v) := by
  obtain ⟨y, m, d⟩ := v
  obtain ⟨h1, h2, h3, h4⟩ := h
  simp only at h1 h2 h3 h4
  unfold addYear
  dsimp only
  split_ifs with hle hm
  · exact ⟨h1, h2, h3, hle⟩
  · unfold Valid
    refine ⟨?_, ?_, ?_, ?_⟩ <;> dsimp only <;>
      first
      | omega
      | (have hub := daysInMonth_ub y m
         have hlb := daysInMonth_lb (y + 1) (m + 1)
         have hlb2 := daysInMonth_lb (y + 1) m
         omega)
  · -- unreachable for valid dates: month 12 never overflows (both years have 31 days)
    have hm12 : m = 12 := by omega
    subst hm12
    rw [daysInMonth_ne_two (y + 1) y 12 (by norm_num)] at hle
    omega

lemma dayNumber_addYear_lb (v : CDate) (h : Valid v) :
    dayNumber v + 365 ≤ dayNumber (addYear v) := by
  obtain ⟨y, m, d⟩ := v
  obtain ⟨h1, h2, h3, h4⟩ := h
  simp only at h1 h2 h3 h4
  unfold addYear
  dsimp only
  split_ifs with hle hm
  · rw [dayNumber_year_succ y m d]
    split_ifs <;> omega
  · -- overflow case: for a valid date this forces m = 2, d = 29, leap y, non-leap y+1
    have hm2 : m = 2 := by
      by_contra hne
      rw [daysInMonth_ne_two (y + 1) y m hne] at hle
      omega
    subst hm2
    have hly : y % 4 = 0 ∧ (y % 100 ≠ 0 ∨ y % 400 = 0) := by
      have a1 := daysInMonth_lb (y + 1) 2
      unfold daysInMonth at h4
      norm_num at h4
      split_ifs at h4 with hl
      · exact (isLeap_iff y).mp hl
      · omega
    have hly1 : ¬((y + 1) % 4 = 0 ∧ ((y + 1) % 100 ≠ 0 ∨ (y + 1) % 400 = 0)) := by
      unfold daysInMonth at hle
      norm_num at hle
      split_ifs at hle with hl
      · omega
      · exact fun hc => hl ((isLeap_iff (y + 1)).mpr hc)
    have h29 : d = 29 := by
      have a1 := daysInMonth_lb (y + 1) 2
      have a2 : daysInMonth y 2 ≤ 29 := by
        unfold daysInMonth
        norm_num
        split_ifs <;> omega
      omega
    subst h29
    have hlen : daysInMonth (y + 1) 2 = 28 := by
      have hb : isLeap (y + 1) = false := by
        cases hb2 : isLeap (y + 1)
        · rfl
        · exact absurd ((isLeap_iff (y + 1)).mp hb2) hly1
      unfold daysInMonth
      rw [hb]
      norm_num
    rw [hlen]
    unfold dayNumber
    dsimp only
    norm_num
    omega
  · have hm12 : m = 12 := by omega
    subst hm12
    rw [daysInMonth_ne_two (y + 1) y 12 (by norm_num)] at hle
    omega

lemma valid_addYearIter (v : CDate) (k : Nat) (h : Valid v) : Valid (addYearIter v k) := by
  induction k generalizing v with
  | zero => exact h
  | succ k ih => exact ih (addYear v) (valid_addYear v h)

lemma dayNumber_addYearIter_lb (v : CDate) (k : Nat) (h : Valid v) :
    dayNumber v + 365 * k ≤ dayNumber (addYearIter v k) := by
  induction k generalizing v with
  | zero => simp [addYearIter]
  | succ k ih =>
    show dayNumber v + 365 * (k + 1 : Nat) ≤ dayNumber (addYearIter (addYear v) k)
    have i1 := ih (addYear v) (valid_addYear v h)
    have i2 := dayNumber_addYear_lb v h
    push_cast
    push_cast at i1
    omega

/-! ### Weekdays -/

lemma weekday_bounds (v : CDate) : 0 ≤ weekday v ∧ weekday v < 7 := by
  unfold weekday
  constructor
  · exact Int.emod_nonneg _ (by norm_num)
  · exact Int.emod_lt_of_pos _ (by norm_num)

lemma weekday_addDays (v : CDate) (n : Nat) (h : Valid v) :
    weekday (addDays v n) = (weekday v + n) % 7 := by
  unfold weekday
  rw [dayNumber_addDays v n h]
  omega

/-! ### Reaching later dates by iterating `nextDay` -/

/-- Chronological (lexicographic) order on civil dates. -/
def ltD (a b : CDate) : Prop :=
  a.y < b.y ∨ (a.y = b.y ∧ (a.m < b.m ∨ (a.m = b.m ∧ a.d < b.d)))

/-- A measure embedding the chronological order of valid dates into `Int`. -/
def muD (v : CDate) : Int := v.y * 372 + v.m * 31 + v.d

lemma muD_lt (a b : CDate) (ha : Valid a) (hb : Valid b) (h : ltD a b) : muD a < muD b := by
  obtain ⟨y1, m1, d1⟩ := a
  obtain ⟨y2, m2, d2⟩ := b
  obtain ⟨a1, a2, a3, a4⟩ := ha
  obtain ⟨b1, b2, b3, b4⟩ := hb
  simp only at a1 a2 a3 a4 b1 b2 b3 b4
  have u1 := daysInMonth_ub y1 m1
  have u2 := daysInMonth_ub y2 m2
  unfold ltD at h
  unfold muD
  dsimp only at h ⊢
  omega

lemma ltD_nextDay (v : CDate) (h : Valid v) : ltD v (nextDay v) := by
  obtain ⟨y, m, d⟩ := v
  obtain ⟨h1, h2, h3, h4⟩ := h
  simp only at h1 h2 h3 h4
  unfold nextDay ltD
  dsimp only
  split_ifs <;> dsimp only <;> omega

lemma ltD_total (v w : CDate) : v = w ∨ ltD v w ∨ ltD w v := by
  obtain ⟨y1, m1, d1⟩ := v
  obtain ⟨y2, m2, d2⟩ := w
  unfold ltD
  simp only [CDate.mk.injEq]
  omega

lemma nextDay_minimal (a b : CDate) (ha : Valid a) (hb : Valid b) (h : ltD a b) :
    nextDay a = b ∨ ltD (nextDay a) b := by
  obtain ⟨y1, m1, d1⟩ := a
  obtain ⟨y2, m2, d2⟩ := b
  obtain ⟨a1, a2, a3, a4⟩ := ha
  obtain ⟨b1, b2, b3, b4⟩ := hb
  simp only at a1 a2 a3 a4 b1 b2 b3 b4
  unfold ltD at h
  dsimp only at h
  unfold nextDay
  dsimp only
  split_ifs with h1 h2
  · by_cases he : y1 = y2 ∧ m1 = m2 ∧ d1 + 1 = d2
    · left
      obtain ⟨e1, e2, e3⟩ := he
      rw [e1, e2, e3]
    · right
      unfold ltD
      dsimp only
      omega
  · by_cases he : y1 = y2 ∧ m1 + 1 = m2 ∧ d2 = 1
    · left
      obtain ⟨e1, e2, e3⟩ := he
      rw [e1, e2, e3]
    · right
      unfold ltD
      dsimp only
      have hb4 : d2 ≤ daysInMonth y1 m1 ∨ ¬(y1 = y2 ∧ m1 = m2) := by
        by_cases hc : y1 = y2 ∧ m1 = m2
        · left
          rw [hc.1, hc.2]
          exact b4
        · right
          exact hc
      omega
  · have hm12 : m1 = 12 := by omega
    subst hm12
    have hd31 : daysInMonth y1 12 = 31 := by unfold daysInMonth; norm_num
    rw [hd31] at h1
    by_cases he : y1 + 1 = y2 ∧ m2 = 1 ∧ d2 = 1
    · left
      obtain ⟨e1, e2, e3⟩ := he
      rw [e1, e2, e3]
    · right
      unfold ltD
      dsimp only
      have hy2 : y1 < y2 := by
        rcases h with hy | ⟨hy, hmm | ⟨hmm, hdd⟩⟩
        · exact hy
        · omega
        · exfalso
          subst hy
          subst hmm
          rw [hd31] at b4
          omega
      omega

lemma reach_aux (w : CDate) (hw : Valid w) :
    ∀ N : Nat, ∀ v : CDate, Valid v → (muD w - muD v).toNat ≤ N →
      (v = w ∨ ltD v w) → ∃ k : Nat, addDays v k = w := by
  intro N
  induction N with
  | zero =>
    intro v hv hN h
    rcases h with he | hlt
    · exact ⟨0, he⟩
    · have := muD_lt v w hv hw hlt
      omega
  | succ N ih =>
    intro v hv hN h
    rcases h with he | hlt
    · exact ⟨0, he⟩
    · rcases nextDay_minimal v w hv hw hlt with he2 | hlt2
      · exact ⟨1, he2⟩
      · have hvn := valid_nextDay v hv
        have hstep := muD_lt v (nextDay v) hv hvn (ltD_nextDay v hv)
        have hup := muD_lt (nextDay v) w hvn hw hlt2
        obtain ⟨k, hk⟩ := ih (nextDay v) hvn (by omega) (Or.inr hlt2)
        exact ⟨k + 1, by rw [addDays_succ_iter]; exact hk⟩

lemma reach_dayNumber (v w : CDate) (hv : Valid v) (hw : Valid w) (h : v = w ∨ ltD v w) :
    ∃ k : Nat, addDays v k = w ∧ (k : Int) = dayNumber w - dayNumber v := by
  obtain ⟨k, hk⟩ := reach_aux w hw (muD w - muD v).toNat v hv (le_refl _) h
  refine ⟨k, hk, ?_⟩
  have := dayNumber_addDays v k hv
  rw [hk] at this
  omega

lemma reach_of_le (v w : CDate) (hv : Valid v) (hw : Valid w)
    (hle : dayNumber v ≤ dayNumber w) :
    ∃ k : Nat, addDays v k = w ∧ (k : Int) = dayNumber w - dayNumber v := by
  rcases ltD_total v w with he | hlt | hgt
  · exact reach_dayNumber v w hv hw (Or.inl he)
  · exact reach_dayNumber v w hv hw (Or.inr hlt)
  · exfalso
    obtain ⟨k, hk, hke⟩ := reach_dayNumber w v hw hv (Or.inr hgt)
    have hk0 : k = 0 := by omega
    subst hk0
    have : w = v := hk
    subst this
    exact absurd (muD_lt w w hw hw hgt) (by omega)

/-! ### Within 366 consecutive days, every nonzero valid day code matches -/

/-- Match of a single `days` entry, as resolved by `matchesMDay`. -/
def mdayMatch (e : Int) (w : CDate) : Prop :=
  (1 ≤ e ∧ e ≤ 31 ∧ w.d = e)
    ∨ (e = -1 ∧ w.d = daysInMonth w.y w.m)
    ∨ (e = -2 ∧ w.d = daysInMonth w.y w.m - 1)

lemma matchesMDay_of_mem (date : CDate) (days : List Int) (e : Int)
    (he : e ∈ days) (h : mdayMatch e date) : matchesMDay date days = true := by
  unfold matchesMDay
  rw [List.any_eq_true]
  refine ⟨e, he, ?_⟩
  rcases h with ⟨g1, g2, g3⟩ | ⟨g1, g2⟩ | ⟨g1, g2⟩
  · rw [if_pos ⟨g1, g2⟩]
    exact beq_iff_eq.mpr g3
  · rw [if_neg (by omega), if_pos g1]
    exact beq_iff_eq.mpr g2
  · rw [if_neg (by omega), if_neg (by omega), if_pos g1]
    exact beq_iff_eq.mpr g2

lemma dayNumber_jan_succ (y : Int) :
    dayNumber ⟨y + 1, 1, 1⟩ = dayNumber ⟨y, 1, 1⟩ + (if isLeap y then 366 else 365) := by
  have h := dayNumber_year_succ y 1 1
  norm_num at h
  exact h

lemma doy_lb (y m d : Int) (h2 : 2 ≤ m) (h3 : m ≤ 12) (h4 : 1 ≤ d) :
    dayNumber ⟨y, 1, 1⟩ + 31 ≤ dayNumber ⟨y, m, d⟩ := by
  unfold dayNumber
  dsimp only
  norm_num
  split_ifs <;> omega

lemma doy_ub (y m d : Int) (hval : Valid ⟨y, m, d⟩) :
    dayNumber ⟨y, m, d⟩ ≤ dayNumber ⟨y, 1, 1⟩ + 365 := by
  obtain ⟨h1, h2, h3, h4⟩ := hval
  simp only at h1 h2 h3 h4
  unfold daysInMonth at h4
  unfold dayNumber
  dsimp only
  norm_num
  split_ifs at h4 ⊢ <;>
    (try simp_all only [isLeap_iff]) <;>
    omega

lemma mdayMatch_exists (c : CDate) (hc : Valid c) (e : Int)
    (h1 : -2 ≤ e) (h2 : e ≤ 31) (h3 : e ≠ 0) :
    ∃ i : Nat, i ≤ 365 ∧ mdayMatch e (addDays c i) := by
  obtain ⟨cy, cm, cd⟩ := c
  obtain ⟨c1, c2, c3, c4⟩ := hc
  simp only at c1 c2 c3 c4
  have hcval : Valid ⟨cy, cm, cd⟩ := ⟨c1, c2, c3, c4⟩
  have clb := daysInMonth_lb cy cm
  have cub := daysInMonth_ub cy cm
  by_cases he1 : e = -1
  · -- last day of the candidate's own month
    subst he1
    have hwv : Valid ⟨cy, cm, daysInMonth cy cm⟩ := ⟨c1, c2, by dsimp only; omega, le_refl _⟩
    have hdd := dayNumber_day_diff cy cm (daysInMonth cy cm) cd
    obtain ⟨k, hk, hke⟩ :=
      reach_of_le ⟨cy, cm, cd⟩ ⟨cy, cm, daysInMonth cy cm⟩ hcval hwv (by omega)
    refine ⟨k, by omega, ?_⟩
    rw [hk]
    right; left
    exact ⟨rfl, rfl⟩
  · by_cases he2 : e = -2
    · subst he2
      by_cases hd : cd ≤ daysInMonth cy cm - 1
      · -- second-to-last day of the candidate's own month
        have hwv : Valid ⟨cy, cm, daysInMonth cy cm - 1⟩ :=
          ⟨c1, c2, by dsimp only; omega, by dsimp only; omega⟩
        have hdd := dayNumber_day_diff cy cm (daysInMonth cy cm - 1) cd
        obtain ⟨k, hk, hke⟩ :=
          reach_of_le ⟨cy, cm, cd⟩ ⟨cy, cm, daysInMonth cy cm - 1⟩ hcval hwv (by omega)
        refine ⟨k, by omega, ?_⟩
        rw [hk]
        right; right
        exact ⟨rfl, rfl⟩
      · -- candidate is the month's last day: aim one month ahead
        have hdlast : cd = daysInMonth cy cm := by omega
        by_cases hm12 : cm < 12
        · have n2lb := daysInMonth_lb cy (cm + 1)
          have n2ub := daysInMonth_ub cy (cm + 1)
          have hstep : dayNumber ⟨cy, cm + 1, 1⟩ = dayNumber ⟨cy, cm, cd⟩ + 1 := by
            rw [hdlast]
            exact dayNumber_month_succ cy cm c1 (by omega)
          have hwv : Valid ⟨cy, cm + 1, daysInMonth cy (cm + 1) - 1⟩ :=
            ⟨by dsimp only; omega, by dsimp only; omega, by dsimp only; omega,
              by dsimp only; omega⟩
          have hdd := dayNumber_day_diff cy (cm + 1) (daysInMonth cy (cm + 1) - 1) 1
          obtain ⟨k, hk, hke⟩ :=
            reach_of_le ⟨cy, cm, cd⟩ ⟨cy, cm + 1, daysInMonth cy (cm + 1) - 1⟩ hcval hwv
              (by omega)
          refine ⟨k, by omega, ?_⟩
          rw [hk]
          right; right
          exact ⟨rfl, rfl⟩
        · have hcm12 : cm = 12 := by omega
          subst hcm12
          have hd31 : daysInMonth cy 12 = 31 := by unfold daysInMonth; norm_num
          have hjan2 : daysInMonth (cy + 1) 1 = 31 := by unfold daysInMonth; norm_num
          have hstep : dayNumber ⟨cy + 1, 1, 1⟩ = dayNumber ⟨cy, 12, cd⟩ + 1 := by
            rw [hdlast, hd31]
            exact dayNumber_year_step cy
          have hwv : Valid ⟨cy + 1, 1, 30⟩ :=
            ⟨by norm_num, by norm_num, by norm_num, by dsimp only; omega⟩
          have hdd := dayNumber_day_diff (cy + 1) 1 30 1
          obtain ⟨k, hk, hke⟩ :=
            reach_of_le ⟨cy, 12, cd⟩ ⟨cy + 1, 1, 30⟩ hcval hwv (by omega)
          refine ⟨k, by omega, ?_⟩
          rw [hk]
          right; right
          rw [hjan2]
          exact ⟨rfl, rfl⟩
    · -- positive entry 1 ≤ e ≤ 31
      have hepos : 1 ≤ e := by omega
      have hjan : daysInMonth cy 1 = 31 := by unfold daysInMonth; norm_num
      have hjan2 : daysInMonth (cy + 1) 1 = 31 := by unfold daysInMonth; norm_num
      by_cases hsame : cm = 1 ∧ cd ≤ e
      · -- day e of the candidate's own January
        obtain ⟨hm1, hde⟩ := hsame
        subst hm1
        have hwv : Valid ⟨cy, 1, e⟩ :=
          ⟨by norm_num, by norm_num, by dsimp only; omega, by dsimp only; omega⟩
        have hdd := dayNumber_day_diff cy 1 e cd
        obtain ⟨k, hk, hke⟩ := reach_of_le ⟨cy, 1, cd⟩ ⟨cy, 1, e⟩ hcval hwv (by omega)
        refine ⟨k, by omega, ?_⟩
        rw [hk]
        left
        exact ⟨hepos, h2, rfl⟩
      · -- day e of next January
        have hwv : Valid ⟨cy + 1, 1, e⟩ :=
          ⟨by norm_num, by norm_num, by dsimp only; omega, by dsimp only; omega⟩
        have hjs := dayNumber_jan_succ cy
        have hde := dayNumber_day_diff (cy + 1) 1 e 1
        have hlow : dayNumber ⟨cy, 1, 1⟩ + (if isLeap cy then 1 else 0) + e - 1
            ≤ dayNumber ⟨cy, cm, cd⟩ := by
          by_cases hm1 : cm = 1
          · subst hm1
            have hdgt : e < cd := by
              rcases not_and_or.mp hsame with hx | hx
              · exact absurd rfl hx
              · omega
            have hdd1 := dayNumber_day_diff cy 1 cd 1
            split_ifs <;> omega
          · have hml : 2 ≤ cm := by omega
            have hlb := doy_lb cy cm cd hml c2 c3
            split_ifs <;> omega
        have hub := doy_ub cy cm cd hcval
        have hcle : dayNumber ⟨cy, cm, cd⟩ ≤ dayNumber ⟨cy + 1, 1, e⟩ := by
          split_ifs at hjs hlow <;> omega
        obtain ⟨k, hk, hke⟩ := reach_of_le ⟨cy, cm, cd⟩ ⟨cy + 1, 1, e⟩ hcval hwv hcle
        refine ⟨k, ?_, ?_⟩
        · split_ifs at hjs hlow <;> omega
        · rw [hk]
          left
          exact ⟨hepos, h2, rfl⟩


/-! ### Loop characterizations -/

lemma afterNow_iff (a b : CDate) : AfterNow a b = true ↔ dayNumber b < dayNumber a := by
  unfold AfterNow
  simp [decide_eq_true_eq]

lemma afterNow_false_iff (a b : CDate) : AfterNow a b = false ↔ dayNumber a ≤ dayNumber b := by
  unfold AfterNow
  simp only [decide_eq_false_iff_not, not_lt]

lemma dLoop_some (now : CDate) (n : Nat) :
    ∀ fuel date r, Valid date → dLoop now n fuel date = some r →
      Valid r ∧ AfterNow r now = true := by
  intro fuel
  induction fuel with
  | zero =>
    intro date r _ h
    exact absurd h (by simp [dLoop])
  | succ fuel ih =>
    intro date r hv h
    simp only [dLoop] at h
    split_ifs at h with ha
    · simp only [Option.some.injEq] at h
      subst h
      exact ⟨valid_addDays date n hv, ha⟩
    · exact ih (addDays date n) r (valid_addDays date n hv) h

lemma yLoop_some (now : CDate) :
    ∀ fuel date r, Valid date → yLoop now fuel date = some r →
      Valid r ∧ AfterNow r now = true := by
  intro fuel
  induction fuel with
  | zero =>
    intro date r _ h
    exact absurd h (by simp [yLoop])
  | succ fuel ih =>
    intro date r hv h
    simp only [yLoop] at h
    split_ifs at h with ha
    · simp only [Option.some.injEq] at h
      subst h
      exact ⟨valid_addYear date hv, ha⟩
    · exact ih (addYear date) r (valid_addYear date hv) h

lemma advanceLoop_some (now : CDate) :
    ∀ fuel c r, Valid c → advanceLoop now fuel c = some r →
      Valid r ∧ AfterNow r now = true := by
  intro fuel
  induction fuel with
  | zero =>
    intro c r _ h
    exact absurd h (by simp [advanceLoop])
  | succ fuel ih =>
    intro c r hv h
    simp only [advanceLoop] at h
    split_ifs at h with ha
    · simp only [Option.some.injEq] at h
      subst h
      exact ⟨valid_nextDay c hv, ha⟩
    · exact ih (nextDay c) r (valid_nextDay c hv) h

lemma scanW_some (now : CDate) (wds : List Int) :
    ∀ fuel c r, Valid c → AfterNow c now = true → scanW wds fuel c = some r →
      Valid r ∧ AfterNow r now = true := by
  intro fuel
  induction fuel with
  | zero =>
    intro c r _ _ h
    exact absurd h (by simp [scanW])
  | succ fuel ih =>
    intro c r hv haf h
    simp only [scanW] at h
    split_ifs at h with hm
    · simp only [Option.some.injEq] at h
      subst h
      exact ⟨hv, haf⟩
    · refine ih (nextDay c) r (valid_nextDay c hv) ?_ h
      rw [afterNow_iff] at haf ⊢
      rw [dayNumber_nextDay c hv]
      omega

lemma scanM_some (now : CDate) (days months : List Int) :
    ∀ fuel c r, Valid c → AfterNow c now = true → scanM days months fuel c = some r →
      Valid r ∧ AfterNow r now = true := by
  intro fuel
  induction fuel with
  | zero =>
    intro c r _ _ h
    exact absurd h (by simp [scanM])
  | succ fuel ih =>
    intro c r hv haf h
    simp only [scanM] at h
    split_ifs at h with hm1 hm2
    · simp only [Option.some.injEq] at h
      subst h
      exact ⟨hv, haf⟩
    · simp only [Option.some.injEq] at h
      subst h
      exact ⟨hv, haf⟩
    · refine ih (nextDay c) r (valid_nextDay c hv) ?_ h
      rw [afterNow_iff] at haf ⊢
      rw [dayNumber_nextDay c hv]
      omega

lemma scanW_exists (wds : List Int) :
    ∀ fuel (c : CDate), (∃ i : Nat, i < fuel ∧ (wds.any fun t => weekday (addDays c i) == t) = true) →
      ∃ r, scanW wds fuel c = some r := by
  intro fuel
  induction fuel with
  | zero =>
    rintro c ⟨i, hi, _⟩
    omega
  | succ fuel ih =>
    rintro c ⟨i, hi, hm⟩
    simp only [scanW]
    split_ifs with h
    · exact ⟨c, rfl⟩
    · apply ih (nextDay c)
      have hi0 : i ≠ 0 := by
        rintro rfl
        exact h hm
      refine ⟨i - 1, by omega, ?_⟩
      rw [show i = (i - 1) + 1 by omega, addDays_succ_iter] at hm
      exact hm

lemma scanM_exists (days : List Int) :
    ∀ fuel (c : CDate), (∃ i : Nat, i < fuel ∧ matchesMDay (addDays c i) days = true) →
      ∃ r, scanM days [] fuel c = some r := by
  intro fuel
  induction fuel with
  | zero =>
    rintro c ⟨i, hi, _⟩
    omega
  | succ fuel ih =>
    rintro c ⟨i, hi, hm⟩
    simp only [scanM, List.isEmpty_nil, Bool.true_and, List.any_nil, Bool.false_eq_true,
      if_false]
    split_ifs with h
    · exact ⟨c, rfl⟩
    · apply ih (nextDay c)
      have hi0 : i ≠ 0 := by
        rintro rfl
        exact h hm
      refine ⟨i - 1, by omega, ?_⟩
      rw [show i = (i - 1) + 1 by omega, addDays_succ_iter] at hm
      exact hm

lemma matchesMDay_false (c : CDate) (days : List Int)
    (hd : ∀ e ∈ days, e = 0 ∨ e < -2) : matchesMDay c days = false := by
  unfold matchesMDay
  rw [List.any_eq_false]
  intro e he
  rcases hd e he with h0 | hlt <;>
    · split_ifs <;> first | omega | simp

lemma scanM_none_empty (days : List Int) (hd : ∀ e ∈ days, e = 0 ∨ e < -2) :
    ∀ fuel c, scanM days [] fuel c = none := by
  intro fuel
  induction fuel with
  | zero => intro c; rfl
  | succ fuel ih =>
    intro c
    simp only [scanM, List.isEmpty_nil, Bool.true_and, List.any_nil]
    rw [matchesMDay_false c days hd]
    simp only [Bool.false_eq_true, if_false]
    exact ih (nextDay c)

lemma scanM_none_months (days months : List Int) (hm : months ≠ [])
    (hd : ∀ e ∈ days, e ≤ 0) :
    ∀ fuel c, Valid c → scanM days months fuel c = none := by
  intro fuel
  induction fuel with
  | zero => intro c _; rfl
  | succ fuel ih =>
    intro c hv
    have hne : months.isEmpty = false := by
      cases months with
      | nil => exact absurd rfl hm
      | cons a l => rfl
    have hany : (months.any fun tm => days.any fun td => c.m == tm && c.d == td) = false := by
      rw [List.any_eq_false]
      intro tm _
      simp only [Bool.not_eq_true]
      rw [List.any_eq_false]
      intro td htd
      have h1 := hd td htd
      have h2 := hv.2.2.1
      simp only [Bool.not_eq_true, Bool.and_eq_false_iff]
      right
      simp only [beq_eq_false_iff_ne, ne_eq]
      omega
    simp only [scanM, hne, Bool.false_and, hany]
    simp only [Bool.false_eq_true, if_false]
    exact ih (nextDay c) (valid_nextDay c hv)


lemma dLoop_eq (now : CDate) (n : Nat) (hn : 1 ≤ n) :
    ∀ fuel start, Valid start →
      (dayNumber now - dayNumber start).toNat / n + 1 ≤ fuel →
      dLoop now n fuel start
        = some (addDays start (((dayNumber now - dayNumber start).toNat / n + 1) * n)) := by
  intro fuel
  induction fuel with
  | zero =>
    intro start _ hf
    exact absurd hf (Nat.not_succ_le_zero _)
  | succ fuel ih =>
    intro start hv hf
    have hnum := dayNumber_addDays start n hv
    simp only [dLoop]
    split_ifs with ha
    · rw [afterNow_iff] at ha
      have hg : (dayNumber now - dayNumber start).toNat / n = 0 :=
        Nat.div_eq_of_lt (by omega)
      rw [hg]
      norm_num
    · simp only [Bool.not_eq_true] at ha
      rw [afterNow_false_iff] at ha
      have hgn : n ≤ (dayNumber now - dayNumber start).toNat := by omega
      have h2 : (dayNumber now - dayNumber (addDays start n)).toNat
          = (dayNumber now - dayNumber start).toNat - n := by omega
      have hdiv : (dayNumber now - dayNumber start).toNat / n
          = ((dayNumber now - dayNumber start).toNat - n) / n + 1 := by
        conv_lhs => rw [Nat.div_eq]
        rw [if_pos ⟨by omega, hgn⟩]
      rw [ih (addDays start n) (valid_addDays start n hv) (by rw [h2]; omega)]
      rw [h2, ← addDays_add]
      congr 1
      rw [hdiv]
      ring_nf

lemma yLoop_eq (now : CDate) :
    ∀ k fuel start, Valid start → 1 ≤ k → k ≤ fuel →
      AfterNow (addYearIter start k) now = true →
      (∀ j : Nat, 1 ≤ j → j < k → AfterNow (addYearIter start j) now = false) →
      yLoop now fuel start = some (addYearIter start k) := by
  intro k
  induction k with
  | zero =>
    intro fuel start _ h1 _ _ _
    exact absurd h1 (by omega)
  | succ k ih =>
    intro fuel start hv h1 hf hafter hmin
    obtain ⟨fuel2, rfl⟩ : ∃ f2, fuel = f2 + 1 := ⟨fuel - 1, by omega⟩
    simp only [yLoop]
    by_cases h0 : k = 0
    · subst h0
      split_ifs with h
      · rfl
      · exact absurd hafter h
    · split_ifs with h
      · exfalso
        have hm := hmin 1 (le_refl _) (by omega)
        rw [show addYearIter start 1 = addYear start from rfl] at hm
        rw [hm] at h
        exact absurd h Bool.false_ne_true
      · apply ih fuel2 (addYear start) (valid_addYear start hv) (by omega) (by omega)
        · exact hafter
        · intro j hj1 hjk
          exact hmin (j + 1) (by omega) (by omega)

lemma yIter_after_exists (now start : CDate) (hv : Valid start) :
    ∃ k : Nat, 1 ≤ k ∧ AfterNow (addYearIter start k) now = true := by
  refine ⟨(dayNumber now - dayNumber start).toNat / 365 + 1, by omega, ?_⟩
  rw [afterNow_iff]
  have hlb := dayNumber_addYearIter_lb start
    ((dayNumber now - dayNumber start).toNat / 365 + 1) hv
  push_cast at hlb
  omega

/-! ### Parser facts -/

lemma parseDate_valid (s : String) (v : CDate) (h : parseDate s = some v) : Valid v := by
  unfold parseDate at h
  split at h
  · split_ifs at h with h1
    dsimp only at h
    split_ifs at h with h2
    simp only [Option.some.injEq] at h
    subst h
    exact h2
  · exact absurd h (by simp)

lemma parseWeekdays_ok (l : List String) (wds : List Int) (h : parseWeekdays l = .ok wds) :
    wds.length = l.length ∧ ∀ w ∈ wds, 0 ≤ w ∧ w ≤ 6 := by
  induction l generalizing wds with
  | nil =>
    simp only [parseWeekdays, Except.ok.injEq] at h
    subst h
    simp
  | cons s rest ih =>
    simp only [parseWeekdays] at h
    split at h
    · exact absurd h (by simp)
    · rename_i day heq
      by_cases hr : day < 1 ∨ day > 7
      · rw [if_pos hr] at h
        exact absurd h (by simp)
      · rw [if_neg hr] at h
        cases hrec : parseWeekdays rest with
        | error e =>
          rw [hrec] at h
          exact absurd h (by simp [Except.map])
        | ok l2 =>
          rw [hrec] at h
          simp only [Except.map, Except.ok.injEq] at h
          subst h
          obtain ⟨hl, hall⟩ := ih l2 hrec
          refine ⟨by simp [hl], ?_⟩
          intro w hw
          rcases List.mem_cons.mp hw with hw1 | hw2
          · subst hw1
            split_ifs with h7
            · norm_num
            · omega
          · exact hall w hw2

lemma parseMDays_ok (l : List String) (days : List Int) (h : parseMDays l = .ok days) :
    days.length = l.length ∧ ∀ e ∈ days, -2 ≤ e ∧ e ≤ 31 := by
  induction l generalizing days with
  | nil =>
    simp only [parseMDays, Except.ok.injEq] at h
    subst h
    simp
  | cons s rest ih =>
    simp only [parseMDays] at h
    split at h
    · exact absurd h (by simp)
    · rename_i day heq
      by_cases hr : day < -2 ∨ day > 31
      · rw [if_pos hr] at h
        exact absurd h (by simp)
      · rw [if_neg hr] at h
        cases hrec : parseMDays rest with
        | error e =>
          rw [hrec] at h
          exact absurd h (by simp [Except.map])
        | ok l2 =>
          rw [hrec] at h
          simp only [Except.map, Except.ok.injEq] at h
          subst h
          obtain ⟨hl, hall⟩ := ih l2 hrec
          refine ⟨by simp [hl], ?_⟩
          intro e he
          rcases List.mem_cons.mp he with he1 | he2
          · subst he1
            omega
          · exact hall e he2

lemma parseMonths_ok (l : List String) (months : List Int) (h : parseMonths l = .ok months) :
    months.length = l.length ∧ ∀ e ∈ months, 1 ≤ e ∧ e ≤ 12 := by
  induction l generalizing months with
  | nil =>
    simp only [parseMonths, Except.ok.injEq] at h
    subst h
    simp
  | cons s rest ih =>
    simp only [parseMonths] at h
    split at h
    · exact absurd h (by simp)
    · rename_i mo heq
      by_cases hr : mo < 1 ∨ mo > 12
      · rw [if_pos hr] at h
        exact absurd h (by simp)
      · rw [if_neg hr] at h
        cases hrec : parseMonths rest with
        | error e =>
          rw [hrec] at h
          exact absurd h (by simp [Except.map])
        | ok l2 =>
          rw [hrec] at h
          simp only [Except.map, Except.ok.injEq] at h
          subst h
          obtain ⟨hl, hall⟩ := ih l2 hrec
          refine ⟨by simp [hl], ?_⟩
          intro e he
          rcases List.mem_cons.mp he with he1 | he2
          · subst he1
            omega
          · exact hall e he2

lemma parseWeekdays_error (l : List String) (e : DErr) (h : parseWeekdays l = .error e) :
    ∃ s ∈ l, e = .wInvalidWeekday s := by
  induction l generalizing e with
  | nil => exact absurd h (by simp [parseWeekdays])
  | cons s rest ih =>
    simp only [parseWeekdays] at h
    split at h
    · simp only [Except.error.injEq] at h
      exact ⟨s, List.mem_cons_self s rest, h.symm⟩
    · rename_i day heq
      by_cases hr : day < 1 ∨ day > 7
      · rw [if_pos hr] at h
        simp only [Except.error.injEq] at h
        exact ⟨s, List.mem_cons_self s rest, h.symm⟩
      · rw [if_neg hr] at h
        cases hrec : parseWeekdays rest with
        | error e2 =>
          rw [hrec] at h
          simp only [Except.map, Except.error.injEq] at h
          subst h
          obtain ⟨s2, hs2, he2⟩ := ih e2 hrec
          exact ⟨s2, List.mem_cons_of_mem s hs2, he2⟩
        | ok l2 =>
          rw [hrec] at h
          exact absurd h (by simp [Except.map])

lemma parseMDays_error (l : List String) (e : DErr) (h : parseMDays l = .error e) :
    (∃ s ∈ l, e = .mDayNotInt s) ∨ (∃ d : Int, e = .mDayRange d ∧ (d < -2 ∨ 31 < d)) := by
  induction l generalizing e with
  | nil => exact absurd h (by simp [parseMDays])
  | cons s rest ih =>
    simp only [parseMDays] at h
    split at h
    · simp only [Except.error.injEq] at h
      exact Or.inl ⟨s, List.mem_cons_self s rest, h.symm⟩
    · rename_i day heq
      by_cases hr : day < -2 ∨ day > 31
      · rw [if_pos hr] at h
        simp only [Except.error.injEq] at h
        exact Or.inr ⟨day, h.symm, by omega⟩
      · rw [if_neg hr] at h
        cases hrec : parseMDays rest with
        | error e2 =>
          rw [hrec] at h
          simp only [Except.map, Except.error.injEq] at h
          subst h
          rcases ih e2 hrec with ⟨s2, hs2, he2⟩ | hd
          · exact Or.inl ⟨s2, List.mem_cons_of_mem s hs2, he2⟩
          · exact Or.inr hd
        | ok l2 =>
          rw [hrec] at h
          exact absurd h (by simp [Except.map])

lemma parseMonths_error (l : List String) (e : DErr) (h : parseMonths l = .error e) :
    (∃ s ∈ l, e = .mMonthNotInt s) ∨ (∃ d : Int, e = .mMonthRange d ∧ (d < 1 ∨ 12 < d)) := by
  induction l generalizing e with
  | nil => exact absurd h (by simp [parseMonths])
  | cons s rest ih =>
    simp only [parseMonths] at h
    split at h
    · simp only [Except.error.injEq] at h
      exact Or.inl ⟨s, List.mem_cons_self s rest, h.symm⟩
    · rename_i mo heq
      by_cases hr : mo < 1 ∨ mo > 12
      · rw [if_pos hr] at h
        simp only [Except.error.injEq] at h
        exact Or.inr ⟨mo, h.symm, by omega⟩
      · rw [if_neg hr] at h
        cases hrec : parseMonths rest with
        | error e2 =>
          rw [hrec] at h
          simp only [Except.map, Except.error.injEq] at h
          subst h
          rcases ih e2 hrec with ⟨s2, hs2, he2⟩ | hd
          · exact Or.inl ⟨s2, List.mem_cons_of_mem s hs2, he2⟩
          · exact Or.inr hd
        | ok l2 =>
          rw [hrec] at h
          exact absurd h (by simp [Except.map])


/-! ### `dispatch` branch equations and the shape of successful results -/

lemma dispatch_y (fuel : Nat) (now date : CDate) (rest : List String) :
    dispatch fuel now date ("y" :: rest)
      = (yLoop now fuel date).map (fun v => .ok (formatDate v)) := rfl

lemma dispatch_d1 (fuel : Nat) (now date : CDate) (t : String) :
    dispatch fuel now date ["d", t]
      = (match atoi t with
         | none => some (.error (.dIntervalNotInt t))
         | some interval =>
           if interval ≤ 0 ∨ interval > 400 then some (.error .dIntervalRange)
           else (dLoop now interval.toNat fuel date).map (fun v => .ok (formatDate v))) := rfl

lemma dispatch_d0 (fuel : Nat) (now date : CDate) :
    dispatch fuel now date ["d"] = some (.error .dNeedsOneValue) := rfl

lemma dispatch_d_many (fuel : Nat) (now date : CDate) (t1 t2 : String) (rest : List String) :
    dispatch fuel now date ("d" :: t1 :: t2 :: rest) = some (.error .dNeedsOneValue) := rfl

lemma dispatch_w0 (fuel : Nat) (now date : CDate) :
    dispatch fuel now date ["w"] = some (.error .wNeedsList) := rfl

lemma dispatch_w (fuel : Nat) (now date : CDate) (t : String) (rest : List String) :
    dispatch fuel now date ("w" :: t :: rest)
      = (match parseWeekdays (splitCh ',' t.data) with
         | .error e => some (.error e)
         | .ok wds =>
           match advanceLoop now fuel (nextDay date) with
           | none => none
           | some c => (scanW wds fuel c).map (fun v => .ok (formatDate v))) := rfl

lemma dispatch_m0 (fuel : Nat) (now date : CDate) :
    dispatch fuel now date ["m"] = some (.error .mNeedsDays) := rfl

lemma dispatch_m (fuel : Nat) (now date : CDate) (t1 : String) (rest2 : List String) :
    dispatch fuel now date ("m" :: t1 :: rest2)
      = (match parseMDays (splitCh ',' t1.data) with
         | .error e => some (.error e)
         | .ok days =>
           match (match rest2 with
                  | [] => Except.ok []
                  | t2 :: _ => parseMonths (splitCh ',' t2.data)) with
           | .error e => some (.error e)
           | .ok months =>
             match advanceLoop now fuel (nextDay date) with
             | none => none
             | some c => (scanM days months fuel c).map (fun v => .ok (formatDate v))) := rfl

lemma dispatch_unknown (fuel : Nat) (now date : CDate) (p0 : String) (rest : List String)
    (h0 : p0 ≠ "d") (h1 : p0 ≠ "y") (h2 : p0 ≠ "w") (h3 : p0 ≠ "m") :
    dispatch fuel now date (p0 :: rest) = some (.error (.unsupportedRule p0)) := by
  unfold dispatch
  dsimp only
  rw [if_neg h0, if_neg h1, if_neg h2, if_neg h3]

lemma nextDate_eq (fuel : Nat) (now : CDate) (ds rt : String) (date : CDate)
    (hp : parseDate ds = some date) (hne : rt ≠ "") :
    NextDate fuel now ds rt = dispatch fuel now date (splitCh ' ' rt.data) := by
  unfold NextDate
  rw [hp]
  dsimp only
  rw [if_neg hne]

lemma nextDate_badStart (fuel : Nat) (now : CDate) (ds rt : String)
    (hp : parseDate ds = none) :
    NextDate fuel now ds rt = some (.error .badStartDate) := by
  unfold NextDate
  rw [hp]

lemma nextDate_emptyRule (fuel : Nat) (now : CDate) (ds : String) (date : CDate)
    (hp : parseDate ds = some date) :
    NextDate fuel now ds "" = some (.error .emptyRepeat) := by
  unfold NextDate
  rw [hp]
  dsimp only
  rw [if_pos rfl]

lemma splitCh_ne (rt p0 : String) (rest : List String)
    (h : splitCh ' ' rt.data = p0 :: rest) (hp : p0 ≠ "") : rt ≠ "" := by
  rintro rfl
  rw [show splitCh ' ' ("" : String).data = [""] from rfl] at h
  injection h with h1 h2
  exact hp h1.symm

lemma optionMap_ok (o : Option CDate) (s : String)
    (h : (o.map fun v => (Except.ok (formatDate v) : Except DErr String)) = some (.ok s)) :
    ∃ v, o = some v ∧ s = formatDate v := by
  cases o with
  | none => simp at h
  | some v =>
    simp only [Option.map_some', Option.some.injEq, Except.ok.injEq] at h
    exact ⟨v, rfl, h.symm⟩

lemma dispatch_ok (fuel : Nat) (now date : CDate) (parts : List String) (s : String)
    (hdv : Valid date) (h : dispatch fuel now date parts = some (.ok s)) :
    ∃ v, Valid v ∧ s = formatDate v ∧ AfterNow v now = true := by
  unfold dispatch at h
  split at h
  · simp at h
  · rename_i p0 rest
    split_ifs at h with hd hy hw hm
    · split at h
      · rename_i t
        split at h
        · simp at h
        · rename_i interval heq
          split_ifs at h with hrange
          · simp at h
          · obtain ⟨v, hv1, hv2⟩ := optionMap_ok _ _ h
            obtain ⟨hval, haft⟩ := dLoop_some now interval.toNat fuel date v hdv hv1
            exact ⟨v, hval, hv2, haft⟩
      · simp at h
    · obtain ⟨v, hv1, hv2⟩ := optionMap_ok _ _ h
      obtain ⟨hval, haft⟩ := yLoop_some now fuel date v hdv hv1
      exact ⟨v, hval, hv2, haft⟩
    · split at h
      · simp at h
      · rename_i t rest2
        split at h
        · simp at h
        · rename_i wds heq
          split at h
          · simp at h
          · rename_i c heqa
            obtain ⟨v, hv1, hv2⟩ := optionMap_ok _ _ h
            obtain ⟨hcval, hcaft⟩ :=
              advanceLoop_some now fuel (nextDay date) c (valid_nextDay date hdv) heqa
            obtain ⟨hval, haft⟩ := scanW_some now wds fuel c v hcval hcaft hv1
            exact ⟨v, hval, hv2, haft⟩
    · split at h
      · simp at h
      · rename_i t1 rest2
        split at h
        · simp at h
        · rename_i days heqd
          split at h
          · simp at h
          · rename_i months heqm
            split at h
            · simp at h
            · rename_i c heqa
              obtain ⟨v, hv1, hv2⟩ := optionMap_ok _ _ h
              obtain ⟨hcval, hcaft⟩ :=
                advanceLoop_some now fuel (nextDay date) c (valid_nextDay date hdv) heqa
              obtain ⟨hval, haft⟩ := scanM_some now days months fuel c v hcval hcaft hv1
              exact ⟨v, hval, hv2, haft⟩
    · simp at h

lemma nextDate_ok (fuel : Nat) (now : CDate) (ds rt s : String)
    (h : NextDate fuel now ds rt = some (.ok s)) :
    ∃ v, Valid v ∧ s = formatDate v ∧ AfterNow v now = true := by
  unfold NextDate at h
  split at h
  · simp at h
  · rename_i date hp
    split_ifs at h with hne
    · simp at h
    · exact dispatch_ok fuel now date _ s (parseDate_valid ds date hp) h


/-! ### Format / parse round trip on 4-digit years -/

lemma isDigitCh_digitCh (k : Nat) (hk : k < 10) : isDigitCh (digitCh k) = true := by
  interval_cases k <;> decide

lemma digitVal_digitCh (k : Nat) (hk : k < 10) : digitVal (digitCh k) = k := by
  interval_cases k <;> decide

lemma parse_format (v : CDate) (hv : Valid v) (hy0 : 0 ≤ v.y) (hy : v.y ≤ 9999) :
    parseDate (formatDate v) = some v := by
  obtain ⟨y, m, d⟩ := v
  obtain ⟨h1, h2, h3, h4⟩ := hv
  simp only at h1 h2 h3 h4 hy0 hy
  have hub := daysInMonth_ub y m
  have hk : y.toNat < 10000 := by omega
  unfold formatDate padYear pad2
  dsimp only
  rw [if_neg (show ¬y < 0 by omega), if_pos hk]
  unfold parseDate
  simp only [List.cons_append, List.nil_append]
  have e1 := isDigitCh_digitCh (y.toNat / 1000) (by omega)
  have e2 := isDigitCh_digitCh (y.toNat / 100 % 10) (by omega)
  have e3 := isDigitCh_digitCh (y.toNat / 10 % 10) (by omega)
  have e4 := isDigitCh_digitCh (y.toNat % 10) (by omega)
  have e5 := isDigitCh_digitCh (m.toNat / 10 % 10) (by omega)
  have e6 := isDigitCh_digitCh (m.toNat % 10) (by omega)
  have e7 := isDigitCh_digitCh (d.toNat / 10 % 10) (by omega)
  have e8 := isDigitCh_digitCh (d.toNat % 10) (by omega)
  rw [e1, e2, e3, e4, e5, e6, e7, e8]
  simp only [Bool.and_self, if_true]
  have v1 := digitVal_digitCh (y.toNat / 1000) (by omega)
  have v2 := digitVal_digitCh (y.toNat / 100 % 10) (by omega)
  have v3 := digitVal_digitCh (y.toNat / 10 % 10) (by omega)
  have v4 := digitVal_digitCh (y.toNat % 10) (by omega)
  have v5 := digitVal_digitCh (m.toNat / 10 % 10) (by omega)
  have v6 := digitVal_digitCh (m.toNat % 10) (by omega)
  have v7 := digitVal_digitCh (d.toNat / 10 % 10) (by omega)
  have v8 := digitVal_digitCh (d.toNat % 10) (by omega)
  rw [v1, v2, v3, v4, v5, v6, v7, v8]
  have ey : Int.ofNat (((y.toNat / 1000 * 10 + y.toNat / 100 % 10) * 10 + y.toNat / 10 % 10) * 10
      + y.toNat % 10) = y := by
    rw [Int.ofNat_eq_natCast]
    omega
  have em : Int.ofNat (m.toNat / 10 % 10 * 10 + m.toNat % 10) = m := by
    rw [Int.ofNat_eq_natCast]
    omega
  have ed : Int.ofNat (d.toNat / 10 % 10 * 10 + d.toNat % 10) = d := by
    rw [Int.ofNat_eq_natCast]
    omega
  rw [ey, em, ed]
  rw [if_pos ⟨h1, h2, h3, h4⟩]


/-! ### Claim theorems -/

/-- C5: for every valid call `NextDate(now, start, "d n")` with `n` in `[1, 400]`,
the returned date equals `start + k·n` days for the smallest `k ≥ 1` such that
that date is strictly after `now` — never one step less or more — and with
enough fuel the call returns exactly the formatted date `start + k·n`. -/
theorem C5_daily_minimal_step (now start : CDate) (ds rt t : String) (n : Int)
    (hnow : Valid now) (hstart : Valid start)
    (hds : parseDate ds = some start)
    (hrt : splitCh ' ' rt.data = ["d", t])
    (hat : atoi t = some n) (hn1 : 1 ≤ n) (hn2 : n ≤ 400) :
    ∃ k : Nat, 1 ≤ k ∧
      AfterNow (addDays start (k * n.toNat)) now = true ∧
      (∀ j : Nat, 1 ≤ j → j < k → AfterNow (addDays start (j * n.toNat)) now = false) ∧
      ∀ fuel : Nat, k ≤ fuel →
        NextDate fuel now ds rt = some (.ok (formatDate (addDays start (k * n.toNat)))) := by
  set g := (dayNumber now - dayNumber start).toNat with hg
  refine ⟨g / n.toNat + 1, Nat.le_add_left 1 _, ?_, ?_, ?_⟩
  · rw [afterNow_iff, dayNumber_addDays start _ hstart]
    have h2 : g < (g / n.toNat + 1) * n.toNat := by
      rw [Nat.add_mul, Nat.one_mul]
      have h3 := Nat.div_add_mod g n.toNat
      rw [Nat.mul_comm] at h3
      have h4 : g % n.toNat < n.toNat := Nat.mod_lt _ (by omega)
      omega
    omega
  · intro j hj1 hjk
    rw [afterNow_false_iff, dayNumber_addDays start _ hstart]
    have h5 : j * n.toNat ≤ g / n.toNat * n.toNat :=
      mul_le_mul_right' (by omega) n.toNat
    have h6 : g / n.toNat * n.toNat ≤ g := Nat.div_mul_le_self g n.toNat
    have h7 : g / n.toNat ≤ g := Nat.div_le_self g n.toNat
    omega
  · intro fuel hfuel
    rw [nextDate_eq fuel now ds rt start hds (splitCh_ne rt "d" _ hrt (by decide)), hrt]
    rw [dispatch_d1, hat]
    dsimp only
    rw [if_neg (by omega)]
    rw [dLoop_eq now n.toNat (by omega) fuel start hstart (by rw [← hg]; exact hfuel)]
    rw [← hg]
    rfl

/-- C5 witness: the spec's literal example `d 7` from start 2024-01-01 with
now 2024-01-10 returns 2024-01-15 = start + 2·7 days. -/
theorem C5_witness :
    (∃ k : Nat, 1 ≤ k ∧
      AfterNow (addDays ⟨2024, 1, 1⟩ (k * (7 : Int).toNat)) ⟨2024, 1, 10⟩ = true ∧
      (∀ j : Nat, 1 ≤ j → j < k →
        AfterNow (addDays ⟨2024, 1, 1⟩ (j * (7 : Int).toNat)) ⟨2024, 1, 10⟩ = false) ∧
      ∀ fuel : Nat, k ≤ fuel →
        NextDate fuel ⟨2024, 1, 10⟩ "20240101" "d 7"
          = some (.ok (formatDate (addDays ⟨2024, 1, 1⟩ (k * (7 : Int).toNat)))))
    ∧ NextDate 20 ⟨2024, 1, 10⟩ "20240101" "d 7" = some (.ok "20240115") :=
  ⟨C5_daily_minimal_step ⟨2024, 1, 10⟩ ⟨2024, 1, 1⟩ "20240101" "d 7" "7" 7
      (by decide) (by decide) (by decide) (by decide) (by decide) (by decide) (by decide),
    by decide⟩

/-- C6: for every valid call `NextDate(now, start, "y")` (trailing tokens, if
any, are ignored), the returned date is the `k`-fold application of
`AddDate(1,0,0)` to `start` for the smallest `k ≥ 1` landing strictly after
`now`; this covers every start date, including Feb 29 of a leap year (which
normalizes to Mar 1 on each addition). -/
theorem C6_yearly_minimal_step (now start : CDate) (ds rt : String) (rest : List String)
    (hnow : Valid now) (hstart : Valid start)
    (hds : parseDate ds = some start)
    (hrt : splitCh ' ' rt.data = "y" :: rest) :
    ∃ k : Nat, 1 ≤ k ∧
      AfterNow (addYearIter start k) now = true ∧
      (∀ j : Nat, 1 ≤ j → j < k → AfterNow (addYearIter start j) now = false) ∧
      ∀ fuel : Nat, k ≤ fuel →
        NextDate fuel now ds rt = some (.ok (formatDate (addYearIter start k))) := by
  have hex : ∃ k : Nat, 1 ≤ k ∧ AfterNow (addYearIter start k) now = true :=
    yIter_after_exists now start hstart
  have hmin : ∀ j : Nat, 1 ≤ j → j < Nat.find hex →
      AfterNow (addYearIter start j) now = false := by
    intro j hj1 hjk
    have hnot := Nat.find_min hex hjk
    simp only [not_and] at hnot
    cases hb : AfterNow (addYearIter start j) now
    · rfl
    · exact absurd hb (hnot hj1)
  refine ⟨Nat.find hex, (Nat.find_spec hex).1, (Nat.find_spec hex).2, hmin, ?_⟩
  intro fuel hfuel
  rw [nextDate_eq fuel now ds rt start hds (splitCh_ne rt "y" rest hrt (by decide)), hrt]
  rw [dispatch_y]
  rw [yLoop_eq now (Nat.find hex) fuel start hstart (Nat.find_spec hex).1 hfuel
    (Nat.find_spec hex).2 hmin]
  rfl

/-- C6 witness: `y` from start 2023-03-05 with now 2024-06-01. -/
theorem C6_witness :
    ∃ k : Nat, 1 ≤ k ∧
      AfterNow (addYearIter ⟨2023, 3, 5⟩ k) ⟨2024, 6, 1⟩ = true ∧
      (∀ j : Nat, 1 ≤ j → j < k → AfterNow (addYearIter ⟨2023, 3, 5⟩ j) ⟨2024, 6, 1⟩ = false) ∧
      ∀ fuel : Nat, k ≤ fuel →
        NextDate fuel ⟨2024, 6, 1⟩ "20230305" "y"
          = some (.ok (formatDate (addYearIter ⟨2023, 3, 5⟩ k))) :=
  C6_yearly_minimal_step ⟨2024, 6, 1⟩ ⟨2023, 3, 5⟩ "20230305" "y" []
    (by decide) (by decide) (by decide) (by decide)

/-- C7: every call of `NextDate` that returns a date (whatever the rule kind)
returns the formatted form of a well-formed calendar date strictly after `now`
at whole-day granularity. -/
theorem C7_result_strictly_after (fuel : Nat) (now : CDate) (ds rt s : String)
    (h : NextDate fuel now ds rt = some (.ok s)) :
    ∃ v, Valid v ∧ s = formatDate v ∧ AfterNow v now = true :=
  nextDate_ok fuel now ds rt s h

/-- C7 witness: a concrete successful call. -/
theorem C7_witness :
    NextDate 40 ⟨2024, 1, 1⟩ "20240101" "w 2" = some (.ok "20240109")
      ∧ ∃ v, Valid v ∧ "20240109" = formatDate v ∧ AfterNow v ⟨2024, 1, 1⟩ = true :=
  ⟨by decide, C7_result_strictly_after 40 ⟨2024, 1, 1⟩ "20240101" "w 2" "20240109" (by decide)⟩

/-- C9 counterexample: a successful call whose returned string has nine
characters (year 10000) and does not re-parse, so format-then-parse is not the
identity on all dates `NextDate` can return. -/
theorem C9_counterexample :
    NextDate 10 ⟨10000, 1, 2⟩ "99991231" "d 1" = some (.ok "100000103")
      ∧ parseDate "100000103" = none := by decide

/-- C9 amended: for every successful result of `NextDate`, re-parsing the
returned string yields exactly the formatted date, provided the result's year
fits the four-digit field (0 ≤ year ≤ 9999); beyond that the year field
overflows eight characters and re-parsing fails. -/
theorem C9_roundtrip_amended (fuel : Nat) (now : CDate) (ds rt s : String)
    (h : NextDate fuel now ds rt = some (.ok s)) :
    ∃ v, Valid v ∧ s = formatDate v ∧
      (0 ≤ v.y → v.y ≤ 9999 → parseDate s = some v) := by
  obtain ⟨v, hval, hs, _⟩ := nextDate_ok fuel now ds rt s h
  refine ⟨v, hval, hs, fun h0 h9 => ?_⟩
  rw [hs]
  exact parse_format v hval h0 h9

/-- C9 witness: the round trip on a concrete successful call. -/
theorem C9_witness :
    NextDate 40 ⟨2024, 2, 27⟩ "20240131" "m -1" = some (.ok "20240229")
      ∧ ∃ v, Valid v ∧ "20240229" = formatDate v ∧
          (0 ≤ v.y → v.y ≤ 9999 → parseDate "20240229" = some v) :=
  ⟨by decide, C9_roundtrip_amended 40 ⟨2024, 2, 27⟩ "20240131" "m -1" "20240229" (by decide)⟩


/-- C1 (code bug): with a months filter present, the scan compares the raw day
of month against the `days` entries, so -1 is never resolved to the month's
last day: `NextDate(now = 2024-02-27, "20240131", "m -1 2")` — which per the
spec should yield 2024-02-29 — loops forever and never returns. -/
theorem C1_months_filter_drops_resolution :
    NeverReturns ⟨2024, 2, 27⟩ "20240131" "m -1 2" := by
  intro fuel
  rw [nextDate_eq fuel ⟨2024, 2, 27⟩ "20240131" "m -1 2" ⟨2024, 1, 31⟩ (by decide) (by decide)]
  rw [show splitCh ' ' ("m -1 2" : String).data = ["m", "-1", "2"] from by decide]
  rw [dispatch_m]
  dsimp only
  rw [show parseMDays (splitCh ',' ("-1" : String).data) = .ok [-1] from by decide]
  dsimp only
  rw [show parseMonths (splitCh ',' ("2" : String).data) = .ok [2] from by decide]
  dsimp only
  cases hadv : advanceLoop ⟨2024, 2, 27⟩ fuel (nextDay ⟨2024, 1, 31⟩) with
  | none => rfl
  | some c =>
    have hc := (advanceLoop_some ⟨2024, 2, 27⟩ fuel (nextDay ⟨2024, 1, 31⟩) c (by decide) hadv).1
    dsimp only
    rw [scanM_none_months [-1] [2] (by decide) (by decide) fuel c hc]
    rfl

/-- C2 counterexample: for the validated rule `m -1 1` the day scan runs more
than 366 one-day steps past `now` without ever finding a match (500 units of
fuel are not enough), refuting the claimed 366-step bound for every validated
monthly rule. -/
theorem C2_counterexample :
    NextDate 500 ⟨2024, 1, 10⟩ "20240101" "m -1 1" = none := by
  rw [nextDate_eq 500 ⟨2024, 1, 10⟩ "20240101" "m -1 1" ⟨2024, 1, 1⟩ (by decide) (by decide)]
  rw [show splitCh ' ' ("m -1 1" : String).data = ["m", "-1", "1"] from by decide]
  rw [dispatch_m]
  dsimp only
  rw [show parseMDays (splitCh ',' ("-1" : String).data) = .ok [-1] from by decide]
  dsimp only
  rw [show parseMonths (splitCh ',' ("1" : String).data) = .ok [1] from by decide]
  dsimp only
  cases hadv : advanceLoop ⟨2024, 1, 10⟩ 500 (nextDay ⟨2024, 1, 1⟩) with
  | none => rfl
  | some c =>
    have hc := (advanceLoop_some ⟨2024, 1, 10⟩ 500 (nextDay ⟨2024, 1, 1⟩) c (by decide) hadv).1
    dsimp only
    rw [scanM_none_months [-1] [1] (by decide) (by decide) 500 c hc]
    rfl

/-- C2 amended: the weekday scan of the `w` rule finds a match within 7
one-day steps of any candidate, for every weekday list that passes validation;
the day scan of the `m` rule finds a match within 366 one-day steps provided
no months filter is given and the validated days list has a nonzero entry.
(With a months filter — or an all-zero days list — the scan can run forever,
as the counterexample shows.) -/
theorem C2_amended_termination :
    (∀ (c : CDate) (l : List String) (wds : List Int),
        Valid c → l ≠ [] → parseWeekdays l = .ok wds →
        ∃ r, scanW wds 7 c = some r)
  ∧ (∀ (c : CDate) (l : List String) (days : List Int),
        Valid c → parseMDays l = .ok days → (∃ e ∈ days, e ≠ 0) →
        ∃ r, scanM days [] 366 c = some r) := by
  constructor
  · intro c l wds hc hl hp
    obtain ⟨hlen, hall⟩ := parseWeekdays_ok l wds hp
    have hwne : wds ≠ [] := by
      intro hwe
      subst hwe
      exact hl (List.length_eq_zero.mp hlen.symm)
    obtain ⟨t, ht⟩ := List.exists_mem_of_ne_nil wds hwne
    obtain ⟨ht0, ht6⟩ := hall t ht
    obtain ⟨hw0, hw7⟩ := weekday_bounds c
    refine scanW_exists wds 7 c ⟨((t - weekday c) % 7).toNat, by omega, ?_⟩
    rw [List.any_eq_true]
    refine ⟨t, ht, ?_⟩
    rw [beq_iff_eq, weekday_addDays c _ hc]
    omega
  · rintro c l days hc hp ⟨e, he, hne⟩
    obtain ⟨hlen, hall⟩ := parseMDays_ok l days hp
    obtain ⟨he1, he2⟩ := hall e he
    obtain ⟨i, hi365, hm⟩ := mdayMatch_exists c hc e he1 he2 hne
    exact scanM_exists days 366 c ⟨i, by omega, matchesMDay_of_mem _ days e he hm⟩

/-- C2 witness: both amended bounds at concrete inputs. -/
theorem C2_witness :
    (∃ r, scanW [1] 7 ⟨2024, 1, 10⟩ = some r)
      ∧ (∃ r, scanM [15] [] 366 ⟨2024, 1, 10⟩ = some r) :=
  ⟨C2_amended_termination.1 ⟨2024, 1, 10⟩ ["1"] [1] (by decide) (by decide) (by decide),
    C2_amended_termination.2 ⟨2024, 1, 10⟩ ["15"] [15] (by decide) (by decide)
      ⟨15, by decide, by decide⟩⟩

/-- C3 (code bug): the weekly scan starts at start+2 and advances one extra
day before the first after-`now` check, so with now = start = Monday
2024-01-01 and rule `w 2` the matching date 2024-01-02 (a Tuesday, strictly
after `now`) is skipped and 2024-01-09 is returned instead of the earliest
match. -/
theorem C3_skips_earliest_match :
    NextDate 30 ⟨2024, 1, 1⟩ "20240101" "w 2" = some (.ok "20240109")
      ∧ weekday ⟨2024, 1, 2⟩ = 2
      ∧ AfterNow ⟨2024, 1, 2⟩ ⟨2024, 1, 1⟩ = true
      ∧ formatDate ⟨2024, 1, 2⟩ = "20240102" := by decide

/-- C4 (code bug): the `m` day-list validation only checks the range
[-2, 31] and accepts 0: `m 0,15` passes validation (the parsed list is
`[0, 15]`) and the call returns a date instead of the out-of-range error the
claim requires. -/
theorem C4_zero_day_accepted :
    parseMDays (splitCh ',' ("0,15" : String).data) = .ok [0, 15]
      ∧ NextDate 50 ⟨2024, 1, 10⟩ "20240101" "m 0,15" = some (.ok "20240115") := by decide


/-- C8 counterexample: the rule `m 0` passes validation (0 is inside the
checked range [-2, 31]) but matches no date, so the call never returns —
there is an input on which `NextDate` yields neither a date nor an error. -/
theorem C8_counterexample :
    NeverReturns ⟨2024, 1, 10⟩ "20240101" "m 0" := by
  intro fuel
  rw [nextDate_eq fuel ⟨2024, 1, 10⟩ "20240101" "m 0" ⟨2024, 1, 1⟩ (by decide) (by decide)]
  rw [show splitCh ' ' ("m 0" : String).data = ["m", "0"] from by decide]
  rw [dispatch_m]
  dsimp only
  rw [show parseMDays (splitCh ',' ("0" : String).data) = .ok [0] from by decide]
  dsimp only
  cases hadv : advanceLoop ⟨2024, 1, 10⟩ fuel (nextDay ⟨2024, 1, 1⟩) with
  | none => rfl
  | some c =>
    dsimp only
    rw [scanM_none_empty [0] (by decide) fuel c]
    rfl

/-- C8 amended: each failure mode is reported as its own typed error with no
date — unparsable start text, empty rule, unknown rule kind, a `d` rule
without exactly one argument, a non-integer or out-of-range `d` interval, a
missing or invalid weekday list, a missing day list, and invalid `m` day or
month lists — and every call that returns yields exactly one of a formatted
valid date strictly after `now` or a typed error, never both.  (The original
claim's "never neither" fails: some validated `m` rules never return, see the
counterexample.) -/
theorem C8_failure_modes_amended :
    (∀ (fuel : Nat) (now : CDate) (ds rt : String), parseDate ds = none →
        NextDate fuel now ds rt = some (.error .badStartDate))
  ∧ (∀ (fuel : Nat) (now : CDate) (ds : String) (v : CDate), parseDate ds = some v →
        NextDate fuel now ds "" = some (.error .emptyRepeat))
  ∧ (∀ (fuel : Nat) (now : CDate) (ds : String) (v : CDate) (rt p0 : String)
        (rest : List String), parseDate ds = some v → rt ≠ "" →
        splitCh ' ' rt.data = p0 :: rest → p0 ≠ "d" → p0 ≠ "y" → p0 ≠ "w" → p0 ≠ "m" →
        NextDate fuel now ds rt = some (.error (.unsupportedRule p0)))
  ∧ (∀ (fuel : Nat) (now : CDate) (ds : String) (v : CDate) (rt : String)
        (rest : List String), parseDate ds = some v →
        splitCh ' ' rt.data = "d" :: rest → rest.length ≠ 1 →
        NextDate fuel now ds rt = some (.error .dNeedsOneValue))
  ∧ (∀ (fuel : Nat) (now : CDate) (ds : String) (v : CDate) (rt t : String),
        parseDate ds = some v → splitCh ' ' rt.data = ["d", t] → atoi t = none →
        NextDate fuel now ds rt = some (.error (.dIntervalNotInt t)))
  ∧ (∀ (fuel : Nat) (now : CDate) (ds : String) (v : CDate) (rt t : String) (n : Int),
        parseDate ds = some v → splitCh ' ' rt.data = ["d", t] → atoi t = some n →
        (n ≤ 0 ∨ n > 400) → NextDate fuel now ds rt = some (.error .dIntervalRange))
  ∧ (∀ (fuel : Nat) (now : CDate) (ds : String) (v : CDate) (rt : String),
        parseDate ds = some v → splitCh ' ' rt.data = ["w"] →
        NextDate fuel now ds rt = some (.error .wNeedsList))
  ∧ (∀ (fuel : Nat) (now : CDate) (ds : String) (v : CDate) (rt t : String)
        (rest : List String) (e : DErr), parseDate ds = some v →
        splitCh ' ' rt.data = "w" :: t :: rest →
        parseWeekdays (splitCh ',' t.data) = .error e →
        NextDate fuel now ds rt = some (.error e)
          ∧ ∃ s2 ∈ splitCh ',' t.data, e = .wInvalidWeekday s2)
  ∧ (∀ (fuel : Nat) (now : CDate) (ds : String) (v : CDate) (rt : String),
        parseDate ds = some v → splitCh ' ' rt.data = ["m"] →
        NextDate fuel now ds rt = some (.error .mNeedsDays))
  ∧ (∀ (fuel : Nat) (now : CDate) (ds : String) (v : CDate) (rt t : String)
        (rest : List String) (e : DErr), parseDate ds = some v →
        splitCh ' ' rt.data = "m" :: t :: rest →
        parseMDays (splitCh ',' t.data) = .error e →
        NextDate fuel now ds rt = some (.error e))
  ∧ (∀ (fuel : Nat) (now : CDate) (ds : String) (v : CDate) (rt t t2 : String)
        (rest : List String) (days : List Int) (e : DErr), parseDate ds = some v →
        splitCh ' ' rt.data = "m" :: t :: t2 :: rest →
        parseMDays (splitCh ',' t.data) = .ok days →
        parseMonths (splitCh ',' t2.data) = .error e →
        NextDate fuel now ds rt = some (.error e))
  ∧ (∀ (fuel : Nat) (now : CDate) (ds rt : String) (r : Except DErr String),
        NextDate fuel now ds rt = some r →
        (∃ s v, r = .ok s ∧ Valid v ∧ s = formatDate v ∧ AfterNow v now = true)
          ∨ (∃ e, r = .error e)) := by
  refine ⟨?_, ?_, ?_, ?_, ?_, ?_, ?_, ?_, ?_, ?_, ?_, ?_⟩
  · intro fuel now ds rt hp
    exact nextDate_badStart fuel now ds rt hp
  · intro fuel now ds v hp
    exact nextDate_emptyRule fuel now ds v hp
  · intro fuel now ds v rt p0 rest hp hne hs h0 h1 h2 h3
    rw [nextDate_eq fuel now ds rt v hp hne, hs,
      dispatch_unknown fuel now v p0 rest h0 h1 h2 h3]
  · intro fuel now ds v rt rest hp hs hlen
    rw [nextDate_eq fuel now ds rt v hp (splitCh_ne rt "d" rest hs (by decide)), hs]
    cases rest with
    | nil => exact dispatch_d0 fuel now v
    | cons a rest2 =>
      cases rest2 with
      | nil => simp at hlen
      | cons b rest3 => exact dispatch_d_many fuel now v a b rest3
  · intro fuel now ds v rt t hp hs hat
    rw [nextDate_eq fuel now ds rt v hp (splitCh_ne rt "d" _ hs (by decide)), hs,
      dispatch_d1, hat]
  · intro fuel now ds v rt t n hp hs hat hr
    rw [nextDate_eq fuel now ds rt v hp (splitCh_ne rt "d" _ hs (by decide)), hs,
      dispatch_d1, hat]
    dsimp only
    rw [if_pos hr]
  · intro fuel now ds v rt hp hs
    rw [nextDate_eq fuel now ds rt v hp (splitCh_ne rt "w" _ hs (by decide)), hs]
    exact dispatch_w0 fuel now v
  · intro fuel now ds v rt t rest e hp hs he
    refine ⟨?_, parseWeekdays_error _ e he⟩
    rw [nextDate_eq fuel now ds rt v hp (splitCh_ne rt "w" _ hs (by decide)), hs,
      dispatch_w, he]
  · intro fuel now ds v rt hp hs
    rw [nextDate_eq fuel now ds rt v hp (splitCh_ne rt "m" _ hs (by decide)), hs]
    exact dispatch_m0 fuel now v
  · intro fuel now ds v rt t rest e hp hs he
    rw [nextDate_eq fuel now ds rt v hp (splitCh_ne rt "m" _ hs (by decide)), hs,
      dispatch_m, he]
  · intro fuel now ds v rt t t2 rest days e hp hs hd he
    rw [nextDate_eq fuel now ds rt v hp (splitCh_ne rt "m" _ hs (by decide)), hs,
      dispatch_m, hd]
    dsimp only
    rw [he]
  · intro fuel now ds rt r h
    cases r with
    | ok s =>
      obtain ⟨v, hval, hfv, haft⟩ := nextDate_ok fuel now ds rt s h
      exact Or.inl ⟨s, v, rfl, hval, hfv, haft⟩
    | error e => exact Or.inr ⟨e, rfl⟩

/-- C8 witness: several failure modes at concrete inputs. -/
theorem C8_witness :
    NextDate 5 ⟨2024, 1, 10⟩ "bad" "d 7" = some (.error .badStartDate)
      ∧ NextDate 5 ⟨2024, 1, 10⟩ "20240101" "q 5" = some (.error (.unsupportedRule "q"))
      ∧ NextDate 5 ⟨2024, 1, 10⟩ "20240101" "d 0" = some (.error .dIntervalRange)
      ∧ NextDate 5 ⟨2024, 1, 10⟩ "20240101" "" = some (.error .emptyRepeat) := by
  obtain ⟨p1, p2, p3, p4, p5, p6, p7, p8, p9, p10, p11, p12⟩ := C8_failure_modes_amended
  exact ⟨p1 5 ⟨2024, 1, 10⟩ "bad" "d 7" (by decide),
    p3 5 ⟨2024, 1, 10⟩ "20240101" ⟨2024, 1, 1⟩ "q 5" "q" ["5"] (by decide) (by decide)
      (by decide) (by decide) (by decide) (by decide) (by decide),
    p6 5 ⟨2024, 1, 10⟩ "20240101" ⟨2024, 1, 1⟩ "d 0" "0" 0 (by decide) (by decide)
      (by decide) (Or.inl (by norm_num)),
    p2 5 ⟨2024, 1, 10⟩ "20240101" ⟨2024, 1, 1⟩ (by decide)⟩

/-- C10: rule tokens beyond the ones a kind consumes are silently ignored for
kinds `y`, `w` and `m` (two rule texts whose space-split forms agree on the
consumed tokens give identical results), while kind `d` rejects any rule whose
split does not have exactly two tokens. -/
theorem C10_trailing_tokens_ignored :
    (∀ (fuel : Nat) (now : CDate) (ds rt rt2 : String) (rest rest2 : List String),
        splitCh ' ' rt.data = "y" :: rest → splitCh ' ' rt2.data = "y" :: rest2 →
        NextDate fuel now ds rt = NextDate fuel now ds rt2)
  ∧ (∀ (fuel : Nat) (now : CDate) (ds rt rt2 t : String) (rest rest2 : List String),
        splitCh ' ' rt.data = "w" :: t :: rest → splitCh ' ' rt2.data = "w" :: t :: rest2 →
        NextDate fuel now ds rt = NextDate fuel now ds rt2)
  ∧ (∀ (fuel : Nat) (now : CDate) (ds rt rt2 t1 t2 : String) (rest rest2 : List String),
        splitCh ' ' rt.data = "m" :: t1 :: t2 :: rest →
        splitCh ' ' rt2.data = "m" :: t1 :: t2 :: rest2 →
        NextDate fuel now ds rt = NextDate fuel now ds rt2)
  ∧ (∀ (fuel : Nat) (now : CDate) (ds rt : String) (v : CDate) (rest : List String),
        parseDate ds = some v → splitCh ' ' rt.data = "d" :: rest → rest.length ≠ 1 →
        NextDate fuel now ds rt = some (.error .dNeedsOneValue)) := by
  refine ⟨?_, ?_, ?_, ?_⟩
  · intro fuel now ds rt rt2 rest rest2 h1 h2
    cases hp : parseDate ds with
    | none => rw [nextDate_badStart fuel now ds rt hp, nextDate_badStart fuel now ds rt2 hp]
    | some v =>
      rw [nextDate_eq fuel now ds rt v hp (splitCh_ne rt "y" rest h1 (by decide)),
        nextDate_eq fuel now ds rt2 v hp (splitCh_ne rt2 "y" rest2 h2 (by decide)),
        h1, h2, dispatch_y, dispatch_y]
  · intro fuel now ds rt rt2 t rest rest2 h1 h2
    cases hp : parseDate ds with
    | none => rw [nextDate_badStart fuel now ds rt hp, nextDate_badStart fuel now ds rt2 hp]
    | some v =>
      rw [nextDate_eq fuel now ds rt v hp (splitCh_ne rt "w" _ h1 (by decide)),
        nextDate_eq fuel now ds rt2 v hp (splitCh_ne rt2 "w" _ h2 (by decide)),
        h1, h2, dispatch_w, dispatch_w]
  · intro fuel now ds rt rt2 t1 t2 rest rest2 h1 h2
    cases hp : parseDate ds with
    | none => rw [nextDate_badStart fuel now ds rt hp, nextDate_badStart fuel now ds rt2 hp]
    | some v =>
      rw [nextDate_eq fuel now ds rt v hp (splitCh_ne rt "m" _ h1 (by decide)),
        nextDate_eq fuel now ds rt2 v hp (splitCh_ne rt2 "m" _ h2 (by decide)),
        h1, h2, dispatch_m, dispatch_m]
  · intro fuel now ds rt v rest hp hs hlen
    rw [nextDate_eq fuel now ds rt v hp (splitCh_ne rt "d" rest hs (by decide)), hs]
    cases rest with
    | nil => exact dispatch_d0 fuel now v
    | cons a rest2 =>
      cases rest2 with
      | nil => simp at hlen
      | cons b rest3 => exact dispatch_d_many fuel now v a b rest3

/-- C10 witness: the claim's literal examples. -/
theorem C10_witness :
    NextDate 10 ⟨2024, 1, 10⟩ "20240101" "y" = NextDate 10 ⟨2024, 1, 10⟩ "20240101" "y 5"
      ∧ NextDate 10 ⟨2024, 1, 10⟩ "20240101" "w 1,2"
          = NextDate 10 ⟨2024, 1, 10⟩ "20240101" "w 1,2 9"
      ∧ NextDate 60 ⟨2024, 1, 10⟩ "20240101" "m 10 1"
          = NextDate 60 ⟨2024, 1, 10⟩ "20240101" "m 10 1 extra"
      ∧ NextDate 10 ⟨2024, 1, 10⟩ "20240101" "d 5 x" = some (.error .dNeedsOneValue) := by
  obtain ⟨py, pw, pm, pd⟩ := C10_trailing_tokens_ignored
  exact ⟨py 10 ⟨2024, 1, 10⟩ "20240101" "y" "y 5" [] ["5"] (by decide) (by decide),
    pw 10 ⟨2024, 1, 10⟩ "20240101" "w 1,2" "w 1,2 9" "1,2" [] ["9"] (by decide) (by decide),
    pm 60 ⟨2024, 1, 10⟩ "20240101" "m 10 1" "m 10 1 extra" "10" "1" [] ["extra"]
      (by decide) (by decide),
    pd 10 ⟨2024, 1, 10⟩ "20240101" "d 5 x" ⟨2024, 1, 1⟩ ["5", "x"] (by decide) (by decide)
      (by decide)⟩
